import Mathlib

/-!
Verification of the bible-crossrefs-visualization export pipeline.

The definitions below are a shallow embedding of the three export scripts
(`export_books.py`, `export_crossrefs.py`, `export_top_verses.py`).
The graph database is modelled by passing its contents (verse lists,
edge lists, verse-count dictionaries) as explicit arguments; Python
dictionaries are modelled as association lists with insertion-order
semantics (an insert of an existing key overwrites in place, an insert
of a fresh key appends at the end).

The canonical book order (`BOOK_ORDER`, built from the external
`CPDV_BOOK_ID_TO_ABBREV` table of 73 distinct abbreviations) is passed
as a parameter `bookOrder : List String`; theorems that need its
duplicate-freeness take it as an explicit hypothesis.  The OT/NT split
(`OT_BOOKS` = first 46 entries) is likewise passed as a list `otBooks`,
and a book is classified OT exactly when it belongs to that list.
-/

/-- A verse node as returned by the graph store:
`{id, book_id, chapter, verse}` (the text field plays no role in the
position index). -/
structure Verse where
  id : String
  book : String
  chapter : Nat
  verse : Nat
deriving DecidableEq, Repr

/-- The per-book verse counts of `export_crossrefs.py` lines 44-49: the
`MATCH (v:Verse) RETURN v.book_id, count(v)` query, i.e. the number of
corpus verses whose `book_id` equals `b` (0 when absent, matching
`verse_counts.get(book, 0)`). -/
def verseCounts (corpus : List Verse) (b : String) : Nat :=
  (corpus.filter (fun v => v.book == b)).length

/-- Helper for `bookStartPositions`: scan the remaining book order with
the running position accumulator (`current_pos` of line 53). -/
def bookStartPositionsGo (counts : String → Nat) : List String → Nat → List (String × Nat)
  | [], _ => []
  | b :: rest, pos => (b, pos) :: bookStartPositionsGo counts rest (pos + counts b)

/-- Model of `export_crossrefs.py` lines 52-56: the `book_start_positions` dict,
iterating `BOOK_ORDER` and accumulating `current_pos += counts.get(book, 0)`. -/
def bookStartPositions (bookOrder : List String) (counts : String → Nat) : List (String × Nat) :=
  bookStartPositionsGo counts bookOrder 0

/-- Python dict assignment `d[k] = v`: overwrite in place when the key
exists, append otherwise (insertion-order semantics). -/
def dictInsert (d : List (String × Nat)) (k : String) (v : Nat) : List (String × Nat) :=
  if (d.map Prod.fst).contains k then
    d.map (fun p => if p.1 == k then (k, v) else p)
  else d ++ [(k, v)]

/-- Model of `book_verse_counter[book] += 1` (line 76), on the counter modelled
as a function. -/
def bump (ctr : String → Nat) (b : String) : String → Nat :=
  fun x => if x == b then ctr x + 1 else ctr x

/-- The verse-assignment loop of `export_crossrefs.py` lines 66-76:
walk the streamed verses; when the verse's book has a start position,
record `book_start_positions[book] + book_verse_counter[book]` for its
id and bump that book's counter; otherwise skip the verse. -/
def bvpGo (starts : List (String × Nat)) : List Verse → List (String × Nat) → (String → Nat) → List (String × Nat)
  | [], vp, _ => vp
  | v :: rest, vp, ctr =>
    match starts.lookup v.book with
    | some s => bvpGo starts rest (dictInsert vp v.id (s + ctr v.book)) (bump ctr v.book)
    | none => bvpGo starts rest vp ctr

/-- Model of `build_verse_positions` (`export_crossrefs.py` lines 39-79): verse
counts and the verse stream both come from the same corpus snapshot;
the result maps verse ids to global positions. -/
def build_verse_positions (bookOrder : List String) (corpus : List Verse) : List (String × Nat) :=
  bvpGo (bookStartPositions bookOrder (verseCounts corpus)) corpus [] (fun _ => 0)

/-- The count printed by `export_crossrefs.py` line 78
(`Indexed {len(verse_positions)} verse positions`): the size of the
final index. -/
def build_verse_positions_report (bookOrder : List String) (corpus : List Verse) : Nat :=
  (build_verse_positions bookOrder corpus).length

/-- A cross-reference record as assembled by `query_crossrefs`
(`export_crossrefs.py` lines 117-126). -/
structure Ref where
  fromId : String
  fromBook : String
  fromPosition : Nat
  toId : String
  toBook : String
  toPosition : Nat
  sources : List String
  votes : Int
deriving DecidableEq, Repr

/-- A raw cross-reference edge of the graph store:
`(a)-[r:CROSS_REFERENCES]->(b)` with `r.sources` and `r.votes`. -/
structure Edge where
  from_id : String
  from_book : String
  to_id : String
  to_book : String
  sources : List String
  votes : Int
deriving DecidableEq, Repr

/-- Python truthiness of the `source_filter` argument at
`export_crossrefs.py` line 87 (`if source_filter:`): `None` and the
empty list are falsy. -/
def sourceFilterActive (filt : Option (List String)) : Bool :=
  match filt with
  | none => false
  | some l => !l.isEmpty

/-- The `WHERE any(s IN r.sources WHERE s IN $sources)` clause of the
filtered query (lines 88-95); when the filter is absent or empty the
unfiltered query (lines 97-103) keeps every edge. -/
def edgePassesSourceFilter (filt : Option (List String)) (e : Edge) : Bool :=
  if sourceFilterActive filt then e.sources.any (fun s => (filt.getD []).contains s) else true

/-- Model of `query_crossrefs` (`export_crossrefs.py` lines 82-129): the source
filter runs in the query, then the Python loop (lines 109-126) drops
any edge with an endpoint missing from `verse_positions` and builds the
output records. -/
def query_crossrefs (positions : List (String × Nat)) (edges : List Edge)
    (filt : Option (List String)) : List Ref :=
  (edges.filter (edgePassesSourceFilter filt)).filterMap (fun e =>
    match positions.lookup e.from_id, positions.lookup e.to_id with
    | some fp, some tp =>
        some ⟨e.from_id, e.from_book, fp, e.to_id, e.to_book, tp, e.sources, e.votes⟩
    | _, _ => none)

/-- Model of `filter_cross_testament` (`export_crossrefs.py` lines 132-147):
partition references into the OT→NT and NT→OT buckets, discarding
same-testament references; a book is OT exactly when it is in
`otBooks` (the `OT_BOOKS` set). -/
def filter_cross_testament (otBooks : List String) : List Ref → List Ref × List Ref
  | [] => ([], [])
  | r :: rest =>
    let p := filter_cross_testament otBooks rest
    if r.fromBook ∈ otBooks ∧ r.toBook ∉ otBooks then (r :: p.1, p.2)
    else if r.fromBook ∉ otBooks ∧ r.toBook ∈ otBooks then (p.1, r :: p.2)
    else p

lemma filter_cross_testament_eq (otBooks : List String) (refs : List Ref) :
    filter_cross_testament otBooks refs =
      (refs.filter (fun r => decide (r.fromBook ∈ otBooks ∧ r.toBook ∉ otBooks)),
       refs.filter (fun r => decide (r.fromBook ∉ otBooks ∧ r.toBook ∈ otBooks))) := by
  induction refs with
  | nil => rfl
  | cons r rest ih =>
    by_cases h1 : r.fromBook ∈ otBooks ∧ r.toBook ∉ otBooks
    · have h2 : ¬ (r.fromBook ∉ otBooks ∧ r.toBook ∈ otBooks) := fun h => h.1 h1.1
      simp [filter_cross_testament, ih, h1, h2, List.filter_cons]
    · by_cases h2 : r.fromBook ∉ otBooks ∧ r.toBook ∈ otBooks
      · simp [filter_cross_testament, ih, h1, h2, List.filter_cons]
      · simp [filter_cross_testament, ih, h1, h2, List.filter_cons]

/-- C2: the two buckets returned by `filter_cross_testament` are
disjoint, and their union is exactly the set of input references whose
endpoint books lie in different testaments; every same-testament
reference appears in neither bucket. -/
theorem crossTestamentPartition (otBooks : List String) (refs : List Ref) :
    (∀ r : Ref, ¬ (r ∈ (filter_cross_testament otBooks refs).1 ∧
                   r ∈ (filter_cross_testament otBooks refs).2)) ∧
    (∀ r : Ref, (r ∈ (filter_cross_testament otBooks refs).1 ∨
                 r ∈ (filter_cross_testament otBooks refs).2) ↔
        (r ∈ refs ∧ ¬ ((r.fromBook ∈ otBooks) ↔ (r.toBook ∈ otBooks)))) := by
  rw [filter_cross_testament_eq]
  constructor
  · rintro r ⟨h1, h2⟩
    rw [List.mem_filter] at h1 h2
    have := h1.2
    have := h2.2
    simp only [decide_eq_true_eq] at *
    tauto
  · intro r
    simp only [List.mem_filter, decide_eq_true_eq]
    constructor
    · rintro (⟨hm, hf⟩ | ⟨hm, hf⟩) <;> exact ⟨hm, by tauto⟩
    · rintro ⟨hm, hf⟩
      by_cases hfr : r.fromBook ∈ otBooks
      · exact Or.inl ⟨hm, hfr, by tauto⟩
      · exact Or.inr ⟨hm, hfr, by tauto⟩

/-- C9: the source filter keeps an edge iff the filter is absent or
empty, or the edge's `sources` intersects the filter; on the spec's
scenario (`A1→C2` with source `X`, `A1→B1` with source `Y`, filter
`[X]`) exactly the first edge survives `query_crossrefs`. -/
theorem sourceFilterSemantics :
    (∀ (filt : Option (List String)) (e : Edge),
      edgePassesSourceFilter filt e = true ↔
        (filt = none ∨ filt = some [] ∨ ∃ s ∈ e.sources, s ∈ filt.getD [])) ∧
    query_crossrefs [("A1", 0), ("B1", 1), ("C2", 2)]
        [⟨"A1", "A", "C2", "C", ["X"], 1⟩, ⟨"A1", "A", "B1", "B", ["Y"], 1⟩]
        (some ["X"]) =
      [⟨"A1", "A", 0, "C2", "C", 2, ["X"], 1⟩] := by
  constructor
  · intro filt e
    match filt with
    | none => simp [edgePassesSourceFilter, sourceFilterActive]
    | some [] => simp [edgePassesSourceFilter, sourceFilterActive]
    | some (f :: fs) =>
      simp only [edgePassesSourceFilter, sourceFilterActive, List.isEmpty_cons,
        Bool.not_false, if_true, List.any_eq_true, Option.getD_some]
      constructor
      · rintro ⟨s, hs, hc⟩
        exact Or.inr (Or.inr ⟨s, hs, List.elem_iff.mp hc⟩)
      · rintro (h | h | ⟨s, hs, hc⟩)
        · exact absurd h (by simp)
        · exact absurd h (by simp)
        · exact ⟨s, hs, List.elem_iff.mpr hc⟩
  · rfl

/-- A book record as built by `calculate_book_positions`
(`export_books.py` lines 58-67).  `endPosition` is an integer because
`current_pos + verse_count - 1` is `-1` when the first book has no
verses. -/
structure Book where
  id : String
  name : String
  order : Nat
  testament : String
  startPosition : Int
  endPosition : Int
  verseCount : Nat
  isDeuterocanonical : Bool
deriving DecidableEq, Repr, Inhabited

/-- Model of `verse_counts.get(book_id, 0)` on the verse-count dictionary
returned by `get_verse_counts` (`export_books.py` line 55). -/
def dictGet (d : List (String × Nat)) (b : String) : Nat :=
  (d.lookup b).getD 0

/-- Helper for `calculate_book_positions`: the loop body of
`export_books.py` lines 54-69 with the `enumerate(start=1)` index `i`
and the `current_pos` accumulator made explicit. -/
def calcBookGo (otBooks deutero : List String) (bookName : String → String)
    (counts : String → Nat) : List String → Nat → Nat → List Book
  | [], _, _ => []
  | b :: rest, i, pos =>
    { id := b
      name := bookName b
      order := i
      testament := if b ∈ otBooks then "OT" else "NT"
      startPosition := (pos : Int)
      endPosition := (pos : Int) + (counts b : Int) - 1
      verseCount := counts b
      isDeuterocanonical := decide (b ∈ deutero) } ::
    calcBookGo otBooks deutero bookName counts rest (i + 1) (pos + counts b)

/-- Model of `calculate_book_positions` (`export_books.py` lines 49-71).  The
external name table `STANDARD_TO_BOOK_NAME.get(book_id, book_id)` is
passed as the function `bookName`. -/
def calculate_book_positions (bookOrder otBooks deutero : List String)
    (bookName : String → String) (vc : List (String × Nat)) : List Book :=
  calcBookGo otBooks deutero bookName (dictGet vc) bookOrder 1 0

/-- The books dataset assembled by `export_books`
(`export_books.py` lines 80-106): `totalVerses` is
`sum(verse_counts.values())` over the raw dictionary, while the book
records come from `calculate_book_positions`; the OT-end and NT-start
lookups (`next(b for b in books if ...)`) are partial and modelled as
options. -/
structure BooksDataset where
  totalVerses : Nat
  otEndPosition : Option Int
  ntStartPosition : Option Int
  books : List Book
deriving Repr

/-- Model of `export_books` (`export_books.py` lines 74-106) restricted to the
data it places in `books.json`. -/
def export_books_dataset (bookOrder otBooks deutero : List String)
    (bookName : String → String) (vc : List (String × Nat)) : BooksDataset :=
  let books := calculate_book_positions bookOrder otBooks deutero bookName vc
  { totalVerses := (vc.map Prod.snd).sum
    otEndPosition := (books.find? (fun b => b.id == "MAL")).map Book.endPosition
    ntStartPosition := (books.find? (fun b => b.id == "MAT")).map Book.startPosition
    books := books }

lemma calcBookGo_length (ot dt : List String) (nm : String → String) (counts : String → Nat) :
    ∀ (order : List String) (i pos : Nat),
      (calcBookGo ot dt nm counts order i pos).length = order.length := by
  intro order
  induction order with
  | nil => intro i pos; rfl
  | cons b rest ih => intro i pos; simp [calcBookGo, ih]

lemma calcBookGo_getD (ot dt : List String) (nm : String → String) (counts : String → Nat) :
    ∀ (order : List String) (i pos j : Nat), j < order.length →
      (calcBookGo ot dt nm counts order i pos).getD j default =
        { id := order.getD j ""
          name := nm (order.getD j "")
          order := i + j
          testament := if order.getD j "" ∈ ot then "OT" else "NT"
          startPosition := ((pos + ((order.take j).map counts).sum : Nat) : Int)
          endPosition := ((pos + ((order.take j).map counts).sum : Nat) : Int) +
            (counts (order.getD j "") : Int) - 1
          verseCount := counts (order.getD j "")
          isDeuterocanonical := decide (order.getD j "" ∈ dt) } := by
  intro order
  induction order with
  | nil => intro i pos j h; exact absurd h (by simp)
  | cons b rest ih =>
    intro i pos j h
    match j with
    | 0 => simp [calcBookGo]
    | j + 1 =>
      have hj : j < rest.length := by simpa using h
      have := ih (i + 1) (pos + counts b) j hj
      simp only [calcBookGo, List.getD_cons_succ, List.take_succ_cons, List.map_cons,
        List.sum_cons] at this ⊢
      rw [this]
      have hadd : pos + counts b + (List.map counts (List.take j rest)).sum
          = pos + (counts b + (List.map counts (List.take j rest)).sum) := by omega
      have hord : i + 1 + j = i + (j + 1) := by omega
      rw [hadd, hord]

lemma take_succ_map_sum (l : List String) (f : String → Nat) (j : Nat) (h : j < l.length) :
    ((l.take (j + 1)).map f).sum = ((l.take j).map f).sum + f (l.getD j "") := by
  have h1 : l[j]? = some (l.getD j "") := by
    rw [List.getD_eq_getElem?_getD, List.getElem?_eq_getElem h]
    rfl
  rw [List.take_succ, h1]
  simp

lemma calcBookGo_start_le (ot dt : List String) (nm : String → String) (counts : String → Nat) :
    ∀ (order : List String) (i pos : Nat),
      ∀ bk ∈ calcBookGo ot dt nm counts order i pos, bk.startPosition ≤ bk.endPosition + 1 := by
  intro order
  induction order with
  | nil => intro i pos bk h; simp [calcBookGo] at h
  | cons b rest ih =>
    intro i pos bk h
    simp only [calcBookGo, List.mem_cons] at h
    rcases h with h | h
    · subst h
      simp only
      omega
    · exact ih (i + 1) (pos + counts b) bk h

/-- C3: `calculate_book_positions` lays the books out by a single
left-to-right scan: each book's `startPosition` is the running total of
the verse counts before it, its `endPosition` is
`startPosition + verseCount - 1`, consecutive books satisfy
`endPosition + 1 = nextBook.startPosition`, and every book satisfies
`startPosition ≤ endPosition + 1`. -/
theorem bookPositionsContiguous (bookOrder otBooks deutero : List String)
    (bookName : String → String) (vc : List (String × Nat)) :
    (∀ j, j < (calculate_book_positions bookOrder otBooks deutero bookName vc).length →
      (((calculate_book_positions bookOrder otBooks deutero bookName vc).getD j default).startPosition
          = (((bookOrder.take j).map (dictGet vc)).sum : Int) ∧
        ((calculate_book_positions bookOrder otBooks deutero bookName vc).getD j default).endPosition
          = ((calculate_book_positions bookOrder otBooks deutero bookName vc).getD j default).startPosition
            + (((calculate_book_positions bookOrder otBooks deutero bookName vc).getD j default).verseCount : Int) - 1)) ∧
    (∀ j, j + 1 < (calculate_book_positions bookOrder otBooks deutero bookName vc).length →
      ((calculate_book_positions bookOrder otBooks deutero bookName vc).getD j default).endPosition + 1
        = ((calculate_book_positions bookOrder otBooks deutero bookName vc).getD (j + 1) default).startPosition) ∧
    (∀ bk ∈ calculate_book_positions bookOrder otBooks deutero bookName vc,
      bk.startPosition ≤ bk.endPosition + 1) := by
  have hlen : (calculate_book_positions bookOrder otBooks deutero bookName vc).length
      = bookOrder.length := calcBookGo_length _ _ _ _ _ _ _
  refine ⟨?_, ?_, ?_⟩
  · intro j hj
    rw [hlen] at hj
    rw [calculate_book_positions, calcBookGo_getD _ _ _ _ _ _ _ _ hj]
    simp
  · intro j hj
    rw [hlen] at hj
    have hj1 : j < bookOrder.length := by omega
    rw [calculate_book_positions, calcBookGo_getD _ _ _ _ _ _ _ _ hj1,
      calcBookGo_getD _ _ _ _ _ _ _ _ hj]
    simp only
    rw [take_succ_map_sum _ _ _ hj1]
    push_cast
    ring
  · exact calcBookGo_start_le _ _ _ _ _ _ _

/-- Witness for C3 on the spec scenario `A:2, B:0, C:3`: book `B` (index
1) starts at the running total 2, and `B.endPosition + 1 = C.startPosition`. -/
theorem bookPositionsContiguous_witness :
    ((calculate_book_positions ["A", "B", "C"] ["A"] [] id [("A", 2), ("C", 3)]).getD 1 default).startPosition
      = (((["A", "B", "C"].take 1).map (dictGet [("A", 2), ("C", 3)])).sum : Int) ∧
    ((calculate_book_positions ["A", "B", "C"] ["A"] [] id [("A", 2), ("C", 3)]).getD 1 default).endPosition + 1
      = ((calculate_book_positions ["A", "B", "C"] ["A"] [] id [("A", 2), ("C", 3)]).getD 2 default).startPosition :=
  ⟨((bookPositionsContiguous ["A", "B", "C"] ["A"] [] id [("A", 2), ("C", 3)]).1 1 (by decide)).1,
   (bookPositionsContiguous ["A", "B", "C"] ["A"] [] id [("A", 2), ("C", 3)]).2.1 1 (by decide)⟩

/-- C4 counterexample: a verse-count mapping containing a key outside
the canonical order (`{"B": 5}` against order `["A"]`).  The dataset's
`totalVerses` is `sum(verse_counts.values()) = 5`, but the exported
book records carry verse counts summing to `0`, and the last book's
`endPosition + 1` is `0`; the claimed equalities fail. -/
theorem booksTotalMismatch :
    (export_books_dataset ["A"] ["A"] [] id [("B", 5)]).totalVerses = 5 ∧
    (((export_books_dataset ["A"] ["A"] [] id [("B", 5)]).books.map Book.verseCount).sum = 0) ∧
    ¬ ((export_books_dataset ["A"] ["A"] [] id [("B", 5)]).totalVerses
        = ((export_books_dataset ["A"] ["A"] [] id [("B", 5)]).books.map Book.verseCount).sum) := by
  refine ⟨rfl, rfl, ?_⟩
  decide

lemma lookup_eq_none_of_not_mem_keys (vc : List (String × Nat)) (k : String)
    (h : k ∉ vc.map Prod.fst) : vc.lookup k = none := by
  induction vc with
  | nil => rfl
  | cons p rest ih =>
    simp only [List.map_cons, List.mem_cons, not_or] at h
    have hk : (k == p.1) = false := by
      simp [h.1]
    simp [List.lookup, hk, ih h.2]

lemma sum_map_ite (bo : List String) (k : String) (n : Nat) (g : String → Nat)
    (hno : bo.Nodup) (hk : k ∈ bo) (hgk : g k = 0) :
    (bo.map (fun b => if b = k then n else g b)).sum = n + (bo.map g).sum := by
  induction bo with
  | nil => exact absurd hk (by simp)
  | cons b rest ih =>
    rw [List.map_cons, List.map_cons, List.sum_cons, List.sum_cons]
    by_cases hbk : b = k
    · have hkr : k ∉ rest := fun hkrr => (List.nodup_cons.mp hno).1 (by rwa [hbk])
      have hmap : rest.map (fun x => if x = k then n else g x) = rest.map g := by
        apply List.map_congr_left
        intro x hx
        have hxk : ¬ x = k := fun hxk => hkr (by rwa [← hxk])
        simp [hxk]
      rw [if_pos hbk, hmap, hbk, hgk]
      omega
    · have hkr : k ∈ rest := by
        rcases List.mem_cons.mp hk with h | h
        · exact absurd h.symm hbk
        · exact h
      rw [if_neg hbk, ih (List.nodup_cons.mp hno).2 hkr]
      omega

lemma dictGet_cons (k : String) (n : Nat) (rest : List (String × Nat)) (b : String) :
    dictGet ((k, n) :: rest) b = if b = k then n else dictGet rest b := by
  by_cases h : b = k
  · simp [dictGet, List.lookup, h]
  · have : (b == k) = false := by simp [h]
    simp [dictGet, List.lookup, this, h]

lemma sum_dictGet (bo : List String) (vc : List (String × Nat))
    (hbo : bo.Nodup) (hkeys : (vc.map Prod.fst).Nodup)
    (hsub : ∀ k ∈ vc.map Prod.fst, k ∈ bo) :
    (bo.map (dictGet vc)).sum = (vc.map Prod.snd).sum := by
  induction vc with
  | nil =>
    have hz : bo.map (dictGet []) = bo.map (fun _ => 0) :=
      List.map_congr_left (fun b _ => rfl)
    rw [hz]
    simp
  | cons p rest ih =>
    obtain ⟨k, n⟩ := p
    simp only [List.map_cons, List.mem_cons] at hkeys hsub
    have hkrest : k ∉ rest.map Prod.fst := (List.nodup_cons.mp hkeys).1
    have hgk : dictGet rest k = 0 := by
      simp [dictGet, lookup_eq_none_of_not_mem_keys rest k hkrest]
    have hmap : bo.map (dictGet ((k, n) :: rest))
        = bo.map (fun b => if b = k then n else dictGet rest b) := by
      apply List.map_congr_left
      intro b _
      exact dictGet_cons k n rest b
    rw [hmap, sum_map_ite bo k n (dictGet rest) hbo (hsub k (Or.inl rfl)) hgk,
      ih (List.nodup_cons.mp hkeys).2 (fun x hx => hsub x (Or.inr hx))]
    simp

lemma calcBookGo_map_verseCount (ot dt : List String) (nm : String → String)
    (counts : String → Nat) :
    ∀ (order : List String) (i pos : Nat),
      (calcBookGo ot dt nm counts order i pos).map Book.verseCount = order.map counts := by
  intro order
  induction order with
  | nil => intro i pos; rfl
  | cons b rest ih => intro i pos; simp [calcBookGo, ih]

lemma calcBookGo_getLast (ot dt : List String) (nm : String → String)
    (counts : String → Nat) :
    ∀ (order : List String) (i pos : Nat) (lb : Book),
      (calcBookGo ot dt nm counts order i pos).getLast? = some lb →
      lb.endPosition = (pos : Int) + ((order.map counts).sum : Int) - 1 := by
  intro order
  induction order with
  | nil => intro i pos lb h; exact absurd h (by simp [calcBookGo])
  | cons b rest ih =>
    intro i pos lb h
    match rest, ih with
    | [], _ =>
      simp only [calcBookGo, List.getLast?_singleton, Option.some.injEq] at h
      subst h
      simp
    | c :: rest', ih =>
      rw [calcBookGo, calcBookGo, List.getLast?_cons_cons, ← calcBookGo] at h
      have hend := ih (i + 1) (pos + counts b) lb h
      have hsum : (List.map counts (b :: c :: rest')).sum
          = counts b + (List.map counts (c :: rest')).sum := by simp
      rw [hend, hsum]
      push_cast
      ring

/-- C4 (amended): when every key of the verse-count mapping lies in the
canonical order (and keys and order are duplicate-free), the dataset's
`totalVerses` equals the sum of the exported books' `verseCount`
fields, and whenever a last book exists its `endPosition + 1` equals
`totalVerses`. -/
theorem booksTotalConsistent (bookOrder otBooks deutero : List String)
    (bookName : String → String) (vc : List (String × Nat))
    (hbo : bookOrder.Nodup)
    (hkeys : (vc.map Prod.fst).Nodup)
    (hsub : ∀ k ∈ vc.map Prod.fst, k ∈ bookOrder) :
    (export_books_dataset bookOrder otBooks deutero bookName vc).totalVerses
      = ((export_books_dataset bookOrder otBooks deutero bookName vc).books.map Book.verseCount).sum ∧
    ∀ lb, (export_books_dataset bookOrder otBooks deutero bookName vc).books.getLast? = some lb →
      lb.endPosition + 1
        = ((export_books_dataset bookOrder otBooks deutero bookName vc).totalVerses : Int) := by
  have hbooks : (export_books_dataset bookOrder otBooks deutero bookName vc).books
      = calcBookGo otBooks deutero bookName (dictGet vc) bookOrder 1 0 := rfl
  have htot : (export_books_dataset bookOrder otBooks deutero bookName vc).totalVerses
      = (vc.map Prod.snd).sum := rfl
  have hsum := sum_dictGet bookOrder vc hbo hkeys hsub
  constructor
  · rw [htot, hbooks, calcBookGo_map_verseCount, hsum]
  · intro lb hlb
    rw [hbooks] at hlb
    have := calcBookGo_getLast otBooks deutero bookName (dictGet vc) bookOrder 1 0 lb hlb
    rw [htot, this, ← hsum]
    push_cast
    ring

/-- Witness for the amended C4 at counts `A:2, B:3` over order
`[A, B]`: `totalVerses = 2 + 3 = 5` matches the book records and the
last book ends at position 4. -/
theorem booksTotalConsistent_witness :
    (export_books_dataset ["A", "B"] ["A"] [] id [("A", 2), ("B", 3)]).totalVerses
      = ((export_books_dataset ["A", "B"] ["A"] [] id [("A", 2), ("B", 3)]).books.map Book.verseCount).sum ∧
    (⟨"B", "B", 2, "NT", 2, 4, 3, false⟩ : Book).endPosition + 1
      = ((export_books_dataset ["A", "B"] ["A"] [] id [("A", 2), ("B", 3)]).totalVerses : Int) :=
  ⟨(booksTotalConsistent ["A", "B"] ["A"] [] id [("A", 2), ("B", 3)]
      (by decide) (by decide) (by decide)).1,
   (booksTotalConsistent ["A", "B"] ["A"] [] id [("A", 2), ("B", 3)]
      (by decide) (by decide) (by decide)).2 ⟨"B", "B", 2, "NT", 2, 4, 3, false⟩ (by decide)⟩

/-- A row of the top-verses query (`export_top_verses.py` lines 59-72):
one cross-reference edge joined with both endpoint verses' text and the
edge's optional passage group. -/
structure TVRecord where
  from_id : String
  from_book : String
  from_text : String
  to_id : String
  to_book : String
  to_text : String
  passage_group : Option String
  sources : List String
deriving DecidableEq, Repr

/-- A member of an expanded passage group
(`export_top_verses.py` line 165). -/
structure Member where
  id : String
  text : String
deriving DecidableEq, Repr

/-- A target entry of a source-verse aggregate
(`export_top_verses.py` lines 100-105); `passage_members` is absent
(`none`) until `expand_passage_groups` attaches it. -/
structure Target where
  to_id : String
  to_book : String
  to_text : String
  passage_group : Option String
  passage_members : Option (List Member)
deriving DecidableEq, Repr

/-- A source-verse aggregate (`verse_refs[from_id]`,
`export_top_verses.py` lines 81-106). -/
structure SourceVerseAgg where
  from_id : String
  from_book : String
  from_text : String
  targets : List Target
  count : Nat
deriving DecidableEq, Repr, Inhabited

/-- The target entry built from one query row
(`export_top_verses.py` lines 100-105). -/
def newTarget (r : TVRecord) : Target :=
  { to_id := r.to_id, to_book := r.to_book, to_text := r.to_text,
    passage_group := r.passage_group, passage_members := none }

/-- One iteration of the aggregation loop
(`export_top_verses.py` lines 92-106): the defaultdict creates a fresh
entry at the end on first access (seeding `from_id`/`from_book`/`from_text`
from the first row), and every row appends its target and increments
`count`. -/
def addRecord (m : List (String × SourceVerseAgg)) (r : TVRecord) :
    List (String × SourceVerseAgg) :=
  if (m.map Prod.fst).contains r.from_id then
    m.map (fun p =>
      if p.1 == r.from_id then
        (p.1, { p.2 with targets := p.2.targets ++ [newTarget r], count := p.2.count + 1 })
      else p)
  else
    m ++ [(r.from_id,
      { from_id := r.from_id, from_book := r.from_book, from_text := r.from_text,
        targets := [newTarget r], count := 1 })]

/-- The whole aggregation pass over the query rows (`verse_refs`). -/
def aggregateRecords (records : List TVRecord) : List (String × SourceVerseAgg) :=
  records.foldl addRecord []

/-- One iteration of the per-book grouping loop
(`export_top_verses.py` lines 109-111) over the `book_verses`
defaultdict of lists. -/
def addToBook (m : List (String × List SourceVerseAgg)) (a : SourceVerseAgg) :
    List (String × List SourceVerseAgg) :=
  if (m.map Prod.fst).contains a.from_book then
    m.map (fun p => if p.1 == a.from_book then (p.1, p.2 ++ [a]) else p)
  else m ++ [(a.from_book, [a])]

/-- Model of the `book_verses` grouping (`export_top_verses.py` lines 109-111),
iterating the aggregates in dict insertion order. -/
def groupByBook (aggs : List SourceVerseAgg) : List (String × List SourceVerseAgg) :=
  aggs.foldl addToBook []

/-- Stable descending insertion on `count`: the inserted element goes
before every element of not-larger count, so an element inserted ahead
of equals keeps the earlier position (Python sort stability). -/
def insertDesc (a : SourceVerseAgg) : List SourceVerseAgg → List SourceVerseAgg
  | [] => [a]
  | b :: l => if b.count ≤ a.count then a :: b :: l else b :: insertDesc a l

/-- Model of the `sorted(verses, reverse=True)` call keyed on `count`
(`export_top_verses.py` line 116): a stable descending sort on `count`,
realised as a structurally recursive stable insertion sort. -/
def sortByCountDesc (vs : List SourceVerseAgg) : List SourceVerseAgg :=
  vs.foldr insertDesc []

/-- The `TOP_N_PER_BOOK` truncation (`export_top_verses.py`
lines 117-120): slice to the first `n` when the limit is set. -/
def truncateTop (topN : Option Nat) (vs : List SourceVerseAgg) : List SourceVerseAgg :=
  match topN with
  | some n => vs.take n
  | none => vs

/-- Model of `get_top_verses_per_book` (`export_top_verses.py` lines 39-122)
applied to the rows returned by the direction/source-filtered query:
aggregate by source verse, group by book, sort each book's aggregates
descending by count, truncate to the top-N limit. -/
def get_top_verses_per_book (topN : Option Nat) (records : List TVRecord) :
    List (String × List SourceVerseAgg) :=
  (groupByBook ((aggregateRecords records).map Prod.snd)).map
    (fun p => (p.1, truncateTop topN (sortByCountDesc p.2)))

lemma insertDesc_perm (a : SourceVerseAgg) (l : List SourceVerseAgg) :
    (insertDesc a l).Perm (a :: l) := by
  induction l with
  | nil => exact List.Perm.refl _
  | cons b l ih =>
    rw [insertDesc]
    by_cases h : b.count ≤ a.count
    · rw [if_pos h]
    · rw [if_neg h]
      exact List.Perm.trans (ih.cons b) (List.Perm.swap a b l)

lemma insertDesc_pairwise (a : SourceVerseAgg) (l : List SourceVerseAgg)
    (h : l.Pairwise (fun x y => y.count ≤ x.count)) :
    (insertDesc a l).Pairwise (fun x y => y.count ≤ x.count) := by
  induction l with
  | nil => simp [insertDesc]
  | cons b l ih =>
    rw [insertDesc]
    rw [List.pairwise_cons] at h
    by_cases hc : b.count ≤ a.count
    · rw [if_pos hc]
      refine List.Pairwise.cons ?_ (List.Pairwise.cons h.1 h.2)
      intro x hx
      rcases List.mem_cons.mp hx with rfl | hx
      · exact hc
      · exact le_trans (h.1 x hx) hc
    · rw [if_neg hc]
      refine List.Pairwise.cons ?_ (ih h.2)
      intro x hx
      have hx2 := (insertDesc_perm a l).mem_iff.mp hx
      rcases List.mem_cons.mp hx2 with rfl | hx2
      · omega
      · exact h.1 x hx2

lemma sortByCountDesc_pairwise (vs : List SourceVerseAgg) :
    (sortByCountDesc vs).Pairwise (fun a b => b.count ≤ a.count) := by
  induction vs with
  | nil => exact List.Pairwise.nil
  | cons v vs ih => exact insertDesc_pairwise v _ ih

lemma sortByCountDesc_perm (vs : List SourceVerseAgg) : (sortByCountDesc vs).Perm vs := by
  induction vs with
  | nil => exact List.Perm.refl _
  | cons v vs ih =>
    exact List.Perm.trans (insertDesc_perm v _) (ih.cons v)

lemma mem_of_mem_truncate (topN : Option Nat) (vs : List SourceVerseAgg)
    (a : SourceVerseAgg) (h : a ∈ truncateTop topN (sortByCountDesc vs)) : a ∈ vs := by
  have hs : a ∈ sortByCountDesc vs := by
    cases topN with
    | none => exact h
    | some n => exact List.take_subset n _ h
  exact (sortByCountDesc_perm vs).mem_iff.mp hs

/-- C5: in every book's output list the aggregate counts are
non-increasing by position, and the list is a prefix of the descending
sort of that book's aggregates, so no aggregate with a higher count is
dropped while one with a lower count is kept. -/
theorem topVersesRanked (topN : Option Nat) (records : List TVRecord) :
    ∀ book lst, (book, lst) ∈ get_top_verses_per_book topN records →
      lst.Pairwise (fun a b => b.count ≤ a.count) ∧
      ∃ vs rest, (book, vs) ∈ groupByBook ((aggregateRecords records).map Prod.snd) ∧
        sortByCountDesc vs = lst ++ rest ∧
        ∀ x ∈ lst, ∀ y ∈ vs, y ∉ lst → y.count ≤ x.count := by
  intro book lst hmem
  rw [get_top_verses_per_book, List.mem_map] at hmem
  obtain ⟨⟨b0, vs0⟩, hp, heq⟩ := hmem
  have hb : b0 = book := congrArg Prod.fst heq
  have hl : truncateTop topN (sortByCountDesc vs0) = lst := congrArg Prod.snd heq
  subst hb
  subst hl
  have hS := sortByCountDesc_pairwise vs0
  cases topN with
  | none =>
    refine ⟨hS, vs0, [], hp, (List.append_nil _).symm, ?_⟩
    intro x _ y hy hyn
    exact absurd ((sortByCountDesc_perm vs0).mem_iff.mpr hy) hyn
  | some n =>
    have hsplit : sortByCountDesc vs0
        = (sortByCountDesc vs0).take n ++ (sortByCountDesc vs0).drop n :=
      (List.take_append_drop n _).symm
    have hSapp : ((sortByCountDesc vs0).take n ++ (sortByCountDesc vs0).drop n).Pairwise
        (fun a b => b.count ≤ a.count) := hsplit ▸ hS
    obtain ⟨hpair1, _, hcross⟩ := List.pairwise_append.mp hSapp
    refine ⟨hpair1, vs0, (sortByCountDesc vs0).drop n, hp, hsplit, ?_⟩
    intro x hx y hy hyn
    have hyS : y ∈ sortByCountDesc vs0 := (sortByCountDesc_perm vs0).mem_iff.mpr hy
    rw [hsplit, List.mem_append] at hyS
    rcases hyS with hyT | hyD
    · exact absurd hyT hyn
    · exact hcross x hx y hyD

lemma aggLoop_inv (P : SourceVerseAgg → Prop)
    (hupd : ∀ (a : SourceVerseAgg) (r : TVRecord), P a →
      P { a with targets := a.targets ++ [newTarget r], count := a.count + 1 })
    (hnew : ∀ r : TVRecord,
      P { from_id := r.from_id, from_book := r.from_book, from_text := r.from_text,
          targets := [newTarget r], count := 1 }) :
    ∀ (records : List TVRecord) (m : List (String × SourceVerseAgg)),
      (∀ p ∈ m, P p.2) → ∀ p ∈ records.foldl addRecord m, P p.2 := by
  intro records
  induction records with
  | nil => intro m hm p hp; exact hm p hp
  | cons r rest ih =>
    intro m hm p hp
    rw [List.foldl_cons] at hp
    refine ih (addRecord m r) ?_ p hp
    intro q hq
    rw [addRecord] at hq
    by_cases hc : ((m.map Prod.fst).contains r.from_id) = true
    · rw [if_pos hc] at hq
      obtain ⟨q0, hq0, hfq⟩ := List.mem_map.mp hq
      by_cases he : (q0.1 == r.from_id) = true
      · rw [if_pos he] at hfq
        subst hfq
        exact hupd q0.2 r (hm q0 hq0)
      · rw [if_neg he] at hfq
        subst hfq
        exact hm q0 hq0
    · rw [if_neg hc] at hq
      rcases List.mem_append.mp hq with hq | hq
      · exact hm q hq
      · rw [List.mem_singleton] at hq
        subst hq
        exact hnew r

lemma gbLoop_inv (P : SourceVerseAgg → Prop) :
    ∀ (xs : List SourceVerseAgg) (m : List (String × List SourceVerseAgg)),
      (∀ p ∈ m, ∀ a ∈ p.2, P a) → (∀ x ∈ xs, P x) →
      ∀ p ∈ xs.foldl addToBook m, ∀ a ∈ p.2, P a := by
  intro xs
  induction xs with
  | nil => intro m hm _ p hp; exact hm p hp
  | cons x rest ih =>
    intro m hm hxs p hp
    rw [List.foldl_cons] at hp
    refine ih (addToBook m x) ?_ (fun z hz => hxs z (List.mem_cons_of_mem x hz)) p hp
    intro q hq a ha
    rw [addToBook] at hq
    by_cases hc : ((m.map Prod.fst).contains x.from_book) = true
    · rw [if_pos hc] at hq
      obtain ⟨q0, hq0, hfq⟩ := List.mem_map.mp hq
      by_cases he : (q0.1 == x.from_book) = true
      · rw [if_pos he] at hfq
        subst hfq
        rcases List.mem_append.mp ha with ha | ha
        · exact hm q0 hq0 a ha
        · rw [List.mem_singleton] at ha
          subst ha
          exact hxs a (List.mem_cons_self a rest)
      · rw [if_neg he] at hfq
        subst hfq
        exact hm q0 hq0 a ha
    · rw [if_neg hc] at hq
      rcases List.mem_append.mp hq with hq | hq
      · exact hm q hq a ha
      · rw [List.mem_singleton] at hq
        subst hq
        rw [List.mem_singleton] at ha
        subst ha
        exact hxs a (List.mem_cons_self a rest)

lemma aggregateRecords_inv (records : List TVRecord) :
    ∀ p ∈ aggregateRecords records, p.2.count = p.2.targets.length ∧ 1 ≤ p.2.count := by
  show ∀ p ∈ records.foldl addRecord [], p.2.count = p.2.targets.length ∧ 1 ≤ p.2.count
  refine aggLoop_inv (fun a => a.count = a.targets.length ∧ 1 ≤ a.count) ?_ ?_ records []
    (by simp)
  · rintro a r ⟨h1, h2⟩
    constructor
    · show a.count + 1 = (a.targets ++ [newTarget r]).length
      simp [h1]
    · show 1 ≤ a.count + 1
      omega
  · intro r
    exact ⟨rfl, le_refl 1⟩

/-- C10: every aggregate in the output of `get_top_verses_per_book`
has `count` equal to the length of its `targets` list, and `count ≥ 1`
(each aggregate is created by its first edge and each appended target
increments `count` by one). -/
theorem topVersesCountMatchesTargets (topN : Option Nat) (records : List TVRecord) :
    ∀ book lst, (book, lst) ∈ get_top_verses_per_book topN records →
      ∀ a ∈ lst, a.count = a.targets.length ∧ 1 ≤ a.count := by
  intro book lst hmem a ha
  rw [get_top_verses_per_book, List.mem_map] at hmem
  obtain ⟨⟨b0, vs0⟩, hp, heq⟩ := hmem
  have hl : truncateTop topN (sortByCountDesc vs0) = lst := congrArg Prod.snd heq
  subst hl
  have havs : a ∈ vs0 := mem_of_mem_truncate topN vs0 a ha
  have hgrp : ∀ p ∈ groupByBook ((aggregateRecords records).map Prod.snd),
      ∀ x ∈ p.2, x.count = x.targets.length ∧ 1 ≤ x.count := by
    show ∀ p ∈ ((aggregateRecords records).map Prod.snd).foldl addToBook [],
      ∀ x ∈ p.2, x.count = x.targets.length ∧ 1 ≤ x.count
    refine gbLoop_inv (fun x => x.count = x.targets.length ∧ 1 ≤ x.count) _ [] (by simp) ?_
    intro x hx
    obtain ⟨q, hq, hqs⟩ := List.mem_map.mp hx
    exact hqs ▸ aggregateRecords_inv records q hq
  exact hgrp (b0, vs0) hp a havs

/-- Witness for C5: two source verses of book `GEN` with counts 2 and 1,
ranked with `topNPerBook = 1`; the kept list is the one-element prefix
of the descending sort. -/
theorem topVersesRanked_witness :
    (((get_top_verses_per_book (some 1)
        [⟨"G1", "GEN", "t1", "M1", "MAT", "u1", none, ["X"]⟩,
         ⟨"G1", "GEN", "t1", "M2", "MAT", "u2", none, ["X"]⟩,
         ⟨"G2", "GEN", "t2", "M1", "MAT", "u1", none, ["X"]⟩]).getD 0 default).2).Pairwise
      (fun a b => b.count ≤ a.count) ∧
    ∃ vs rest, ("GEN", vs) ∈ groupByBook ((aggregateRecords
        [⟨"G1", "GEN", "t1", "M1", "MAT", "u1", none, ["X"]⟩,
         ⟨"G1", "GEN", "t1", "M2", "MAT", "u2", none, ["X"]⟩,
         ⟨"G2", "GEN", "t2", "M1", "MAT", "u1", none, ["X"]⟩]).map Prod.snd) ∧
      sortByCountDesc vs = (((get_top_verses_per_book (some 1)
        [⟨"G1", "GEN", "t1", "M1", "MAT", "u1", none, ["X"]⟩,
         ⟨"G1", "GEN", "t1", "M2", "MAT", "u2", none, ["X"]⟩,
         ⟨"G2", "GEN", "t2", "M1", "MAT", "u1", none, ["X"]⟩]).getD 0 default).2) ++ rest ∧
      ∀ x ∈ (((get_top_verses_per_book (some 1)
        [⟨"G1", "GEN", "t1", "M1", "MAT", "u1", none, ["X"]⟩,
         ⟨"G1", "GEN", "t1", "M2", "MAT", "u2", none, ["X"]⟩,
         ⟨"G2", "GEN", "t2", "M1", "MAT", "u1", none, ["X"]⟩]).getD 0 default).2),
        ∀ y ∈ vs, y ∉ (((get_top_verses_per_book (some 1)
        [⟨"G1", "GEN", "t1", "M1", "MAT", "u1", none, ["X"]⟩,
         ⟨"G1", "GEN", "t1", "M2", "MAT", "u2", none, ["X"]⟩,
         ⟨"G2", "GEN", "t2", "M1", "MAT", "u1", none, ["X"]⟩]).getD 0 default).2) →
          y.count ≤ x.count :=
  topVersesRanked (some 1)
    [⟨"G1", "GEN", "t1", "M1", "MAT", "u1", none, ["X"]⟩,
     ⟨"G1", "GEN", "t1", "M2", "MAT", "u2", none, ["X"]⟩,
     ⟨"G2", "GEN", "t2", "M1", "MAT", "u1", none, ["X"]⟩] "GEN"
    (((get_top_verses_per_book (some 1)
        [⟨"G1", "GEN", "t1", "M1", "MAT", "u1", none, ["X"]⟩,
         ⟨"G1", "GEN", "t1", "M2", "MAT", "u2", none, ["X"]⟩,
         ⟨"G2", "GEN", "t2", "M1", "MAT", "u1", none, ["X"]⟩]).getD 0 default).2) (by decide)

/-- Witness for C10 on the same three rows: the surviving aggregate has
`count = 2 = targets.length ≥ 1`. -/
theorem topVersesCountMatchesTargets_witness :
    ((((get_top_verses_per_book (some 1)
        [⟨"G1", "GEN", "t1", "M1", "MAT", "u1", none, ["X"]⟩,
         ⟨"G1", "GEN", "t1", "M2", "MAT", "u2", none, ["X"]⟩,
         ⟨"G2", "GEN", "t2", "M1", "MAT", "u1", none, ["X"]⟩]).getD 0 default).2).getD 0 default).count
      = ((((get_top_verses_per_book (some 1)
        [⟨"G1", "GEN", "t1", "M1", "MAT", "u1", none, ["X"]⟩,
         ⟨"G1", "GEN", "t1", "M2", "MAT", "u2", none, ["X"]⟩,
         ⟨"G2", "GEN", "t2", "M1", "MAT", "u1", none, ["X"]⟩]).getD 0 default).2).getD 0 default).targets.length ∧
    1 ≤ ((((get_top_verses_per_book (some 1)
        [⟨"G1", "GEN", "t1", "M1", "MAT", "u1", none, ["X"]⟩,
         ⟨"G1", "GEN", "t1", "M2", "MAT", "u2", none, ["X"]⟩,
         ⟨"G2", "GEN", "t2", "M1", "MAT", "u1", none, ["X"]⟩]).getD 0 default).2).getD 0 default).count :=
  topVersesCountMatchesTargets (some 1)
    [⟨"G1", "GEN", "t1", "M1", "MAT", "u1", none, ["X"]⟩,
     ⟨"G1", "GEN", "t1", "M2", "MAT", "u2", none, ["X"]⟩,
     ⟨"G2", "GEN", "t2", "M1", "MAT", "u1", none, ["X"]⟩] "GEN"
    (((get_top_verses_per_book (some 1)
        [⟨"G1", "GEN", "t1", "M1", "MAT", "u1", none, ["X"]⟩,
         ⟨"G1", "GEN", "t1", "M2", "MAT", "u2", none, ["X"]⟩,
         ⟨"G2", "GEN", "t2", "M1", "MAT", "u1", none, ["X"]⟩]).getD 0 default).2) (by decide)
    (((((get_top_verses_per_book (some 1)
        [⟨"G1", "GEN", "t1", "M1", "MAT", "u1", none, ["X"]⟩,
         ⟨"G1", "GEN", "t1", "M2", "MAT", "u2", none, ["X"]⟩,
         ⟨"G2", "GEN", "t2", "M1", "MAT", "u1", none, ["X"]⟩]).getD 0 default).2).getD 0 default)) (by decide)

/-- The `(verse["from_id"], target["passage_group"])` pairs contributed
by one aggregate (`export_top_verses.py` lines 143-146): one pair per
target carrying a passage group. -/
def collectPairsAgg (v : SourceVerseAgg) : List (String × String) :=
  v.targets.filterMap (fun t => t.passage_group.map (fun g => (v.from_id, g)))

/-- Model of `passage_groups_to_fetch` (`export_top_verses.py` lines 141-146);
the Python set is modelled by this list's membership (duplicates are
irrelevant to every use). -/
def collectPairs (d : List (String × List SourceVerseAgg)) : List (String × String) :=
  d.flatMap (fun p => p.2.flatMap collectPairsAgg)

/-- The per-target update of `export_top_verses.py` lines 171-175: a
target with a truthy `passage_group` whose key was fetched gets
`passage_members` set to the fetched list (`passage_group_members[key]
= fetch source_id pg`, lines 157-166); every other target is untouched. -/
def expandTarget (fetch : String → String → List Member)
    (pairs : List (String × String)) (fromId : String) (t : Target) : Target :=
  match t.passage_group with
  | some g =>
      if (fromId, g) ∈ pairs then { t with passage_members := some (fetch fromId g) } else t
  | none => t

/-- The update applied to one aggregate's targets
(`export_top_verses.py` lines 170-175). -/
def expandAgg (fetch : String → String → List Member)
    (pairs : List (String × String)) (v : SourceVerseAgg) : SourceVerseAgg :=
  { v with targets := v.targets.map (expandTarget fetch pairs v.from_id) }

/-- Model of `expand_passage_groups` (`export_top_verses.py` lines 136-177): if
no `(source, group)` pair is collected the data is returned unchanged
(line 148); otherwise every pair is fetched through the external lookup
`fetch` and attached to each matching target. -/
def expand_passage_groups (fetch : String → String → List Member)
    (d : List (String × List SourceVerseAgg)) : List (String × List SourceVerseAgg) :=
  let pairs := collectPairs d
  if pairs = [] then d
  else d.map (fun p => (p.1, p.2.map (expandAgg fetch pairs)))

lemma expandTarget_pg (f : String → String → List Member) (pairs : List (String × String))
    (fid : String) (t : Target) :
    (expandTarget f pairs fid t).passage_group = t.passage_group := by
  cases h : t.passage_group with
  | none => simp [expandTarget, h]
  | some g =>
    simp only [expandTarget, h]
    split
    · simp [h]
    · exact h

lemma expandTarget_idem (f : String → String → List Member) (pairs : List (String × String))
    (fid : String) (t : Target) :
    expandTarget f pairs fid (expandTarget f pairs fid t) = expandTarget f pairs fid t := by
  cases h : t.passage_group with
  | none => simp [expandTarget, h]
  | some g =>
    by_cases hm : (fid, g) ∈ pairs
    · simp [expandTarget, h, hm]
    · simp [expandTarget, h, hm]

lemma expandAgg_idem (f : String → String → List Member) (pairs : List (String × String))
    (v : SourceVerseAgg) :
    expandAgg f pairs (expandAgg f pairs v) = expandAgg f pairs v := by
  simp only [expandAgg, List.map_map]
  congr 1
  apply List.map_congr_left
  intro t _
  exact expandTarget_idem f pairs v.from_id t

lemma collectPairsAgg_expand (f : String → String → List Member)
    (pairs : List (String × String)) (v : SourceVerseAgg) :
    collectPairsAgg (expandAgg f pairs v) = collectPairsAgg v := by
  simp only [collectPairsAgg, expandAgg]
  rw [List.filterMap_map]
  apply List.filterMap_congr
  intro t _
  simp [Function.comp, expandTarget_pg]

lemma bindCollect_expand (f : String → String → List Member)
    (pairs : List (String × String)) (vs : List SourceVerseAgg) :
    (vs.map (expandAgg f pairs)).flatMap collectPairsAgg = vs.flatMap collectPairsAgg := by
  induction vs with
  | nil => rfl
  | cons v vs ih =>
    rw [List.map_cons, List.flatMap_cons, List.flatMap_cons, ih,
      collectPairsAgg_expand]

lemma collectPairs_expand (f : String → String → List Member)
    (pairs : List (String × String)) (d : List (String × List SourceVerseAgg)) :
    collectPairs (d.map (fun p => (p.1, p.2.map (expandAgg f pairs)))) = collectPairs d := by
  induction d with
  | nil => rfl
  | cons p d ih =>
    simp only [collectPairs, List.map_cons, List.flatMap_cons] at ih ⊢
    rw [bindCollect_expand f pairs p.2, ih]

/-- C6: passage-group expansion is idempotent — expanding an
already-expanded structure (with the same external lookup) changes
nothing. -/
theorem expandIdempotent (f : String → String → List Member)
    (d : List (String × List SourceVerseAgg)) :
    expand_passage_groups f (expand_passage_groups f d) = expand_passage_groups f d := by
  have hexp : ∀ (dd : List (String × List SourceVerseAgg)), ¬ collectPairs dd = [] →
      expand_passage_groups f dd
        = dd.map (fun p => (p.1, p.2.map (expandAgg f (collectPairs dd)))) := by
    intro dd hdd
    simp only [expand_passage_groups]
    rw [if_neg hdd]
  by_cases hp : collectPairs d = []
  · have h1 : expand_passage_groups f d = d := by
      simp only [expand_passage_groups]
      rw [if_pos hp]
    rw [h1]
    exact h1
  · have h1 := hexp d hp
    have hcp : collectPairs (expand_passage_groups f d) = collectPairs d := by
      rw [h1]
      exact collectPairs_expand f (collectPairs d) d
    have hp2 : ¬ collectPairs (expand_passage_groups f d) = [] := by
      rw [hcp]
      exact hp
    rw [hexp _ hp2, hcp, h1, List.map_map]
    apply List.map_congr_left
    intro p _
    simp only [Function.comp_apply, List.map_map]
    congr 1
    apply List.map_congr_left
    intro v _
    exact expandAgg_idem f (collectPairs d) v

/-- C7 counterexample: a single target in passage group `PG` whose
fetch returns no members.  `expand_passage_groups` still stores the
empty list under the key and the update loop attaches
`passage_members = some []` — the target is NOT left without a members
attachment. -/
theorem emptyFetchAttachesEmptyList :
    expand_passage_groups (fun _ _ => [])
        [("GEN", [⟨"G1", "GEN", "t", [⟨"M1", "MAT", "u", some "PG", none⟩], 1⟩])]
      = [("GEN", [⟨"G1", "GEN", "t", [⟨"M1", "MAT", "u", some "PG", some []⟩], 1⟩])] ∧
    ¬ (∀ bl ∈ expand_passage_groups (fun _ _ => [])
          [("GEN", [⟨"G1", "GEN", "t", [⟨"M1", "MAT", "u", some "PG", none⟩], 1⟩])],
        ∀ v ∈ bl.2, ∀ t ∈ v.targets, t.passage_members = none) := by
  constructor
  · rfl
  · decide

lemma mem_collectPairs (d : List (String × List SourceVerseAgg))
    (bl : String × List SourceVerseAgg) (hbl : bl ∈ d)
    (v : SourceVerseAgg) (hv : v ∈ bl.2)
    (t : Target) (ht : t ∈ v.targets)
    (g : String) (hg : t.passage_group = some g) :
    (v.from_id, g) ∈ collectPairs d := by
  rw [collectPairs, List.mem_flatMap]
  refine ⟨bl, hbl, ?_⟩
  rw [List.mem_flatMap]
  refine ⟨v, hv, ?_⟩
  rw [collectPairsAgg, List.mem_filterMap]
  exact ⟨t, ht, by rw [hg]; rfl⟩

/-- C7 (amended): a target whose `(source verse, passage group)` pair
yields no members from the external fetch gets `passage_members`
attached as the EMPTY list (not left absent), and the expansion
function still returns a value for the whole structure — the empty
fetch never fails the export. -/
theorem emptyFetchBehavior (f : String → String → List Member)
    (d : List (String × List SourceVerseAgg)) :
    ∀ bl ∈ d, ∀ v ∈ bl.2, ∀ t ∈ v.targets, ∀ g, t.passage_group = some g →
      f v.from_id g = [] →
      ∃ bl2 ∈ expand_passage_groups f d, bl2.1 = bl.1 ∧
        ∃ v2 ∈ bl2.2, v2.from_id = v.from_id ∧
          ({ t with passage_members := some [] } : Target) ∈ v2.targets := by
  intro bl hbl v hv t ht g hg hf
  have hpair : (v.from_id, g) ∈ collectPairs d := mem_collectPairs d bl hbl v hv t ht g hg
  have hne : ¬ collectPairs d = [] := by
    intro h
    rw [h] at hpair
    exact absurd hpair (by simp)
  have hexp : expand_passage_groups f d
      = d.map (fun p => (p.1, p.2.map (expandAgg f (collectPairs d)))) := by
    simp only [expand_passage_groups]
    rw [if_neg hne]
  refine ⟨(bl.1, bl.2.map (expandAgg f (collectPairs d))), ?_, rfl, ?_⟩
  · rw [hexp]
    exact List.mem_map_of_mem _ hbl
  · refine ⟨expandAgg f (collectPairs d) v, List.mem_map_of_mem _ hv, rfl, ?_⟩
    have hT : expandTarget f (collectPairs d) v.from_id t
        = { t with passage_members := some [] } := by
      simp only [expandTarget, hg]
      rw [if_pos hpair, hf]
    rw [expandAgg]
    have := List.mem_map_of_mem (expandTarget f (collectPairs d) v.from_id) ht
    rw [hT] at this
    exact this

/-- Witness for the amended C7 on the counterexample input: the target
resurfaces with `passage_members = some []`. -/
theorem emptyFetchBehavior_witness :
    ∃ bl2 ∈ expand_passage_groups (fun _ _ => ([] : List Member))
        [("GEN", [⟨"G1", "GEN", "t", [⟨"M1", "MAT", "u", some "PG", none⟩], 1⟩])],
      bl2.1 = ("GEN", [(⟨"G1", "GEN", "t", [⟨"M1", "MAT", "u", some "PG", none⟩], 1⟩ : SourceVerseAgg)]).1 ∧
      ∃ v2 ∈ bl2.2, v2.from_id = (⟨"G1", "GEN", "t", [⟨"M1", "MAT", "u", some "PG", none⟩], 1⟩ : SourceVerseAgg).from_id ∧
        ({ (⟨"M1", "MAT", "u", some "PG", none⟩ : Target) with passage_members := some [] } : Target) ∈ v2.targets :=
  emptyFetchBehavior (fun _ _ => [])
    [("GEN", [⟨"G1", "GEN", "t", [⟨"M1", "MAT", "u", some "PG", none⟩], 1⟩])]
    ("GEN", [⟨"G1", "GEN", "t", [⟨"M1", "MAT", "u", some "PG", none⟩], 1⟩]) (by decide)
    ⟨"G1", "GEN", "t", [⟨"M1", "MAT", "u", some "PG", none⟩], 1⟩ (by decide)
    ⟨"M1", "MAT", "u", some "PG", none⟩ (by decide) "PG" rfl rfl

/-- Pure restatement of the `bvpGo` loop used in proofs: with fresh
verse ids the dict of `build_verse_positions` grows by appending, so
the loop emits one `(id, position)` pair per mapped verse in stream
order. -/
def assignCons (starts : List (String × Nat)) : List Verse → (String → Nat) → List (String × Nat)
  | [], _ => []
  | v :: rest, ctr =>
    match starts.lookup v.book with
    | some s => (v.id, s + ctr v.book) :: assignCons starts rest (bump ctr v.book)
    | none => assignCons starts rest ctr

/-- The positions-only form of the loop when every verse's book is
mapped: each verse contributes `start(book) + counter(book)` and bumps
its book's counter. -/
def assignF (f : String → Nat) : List Verse → (String → Nat) → List Nat
  | [], _ => []
  | v :: rest, ctr => (f v.book + ctr v.book) :: assignF f rest (bump ctr v.book)

lemma dictInsert_not_mem (d : List (String × Nat)) (k : String) (v : Nat)
    (h : k ∉ d.map Prod.fst) : dictInsert d k v = d ++ [(k, v)] := by
  rw [dictInsert, if_neg]
  intro hc
  exact h (List.elem_iff.mp hc)

lemma bvpGo_eq_append (starts : List (String × Nat)) :
    ∀ (stream : List Verse) (vp : List (String × Nat)) (ctr : String → Nat),
      (stream.map Verse.id).Nodup →
      (∀ v ∈ stream, v.id ∉ vp.map Prod.fst) →
      bvpGo starts stream vp ctr = vp ++ assignCons starts stream ctr := by
  intro stream
  induction stream with
  | nil => intro vp ctr _ _; simp [bvpGo, assignCons]
  | cons v rest ih =>
    intro vp ctr h1 h2
    rw [List.map_cons, List.nodup_cons] at h1
    cases hlk : starts.lookup v.book with
    | none =>
      simp only [bvpGo, assignCons, hlk]
      exact ih vp ctr h1.2 (fun u hu => h2 u (List.mem_cons_of_mem v hu))
    | some s =>
      simp only [bvpGo, assignCons, hlk]
      have hvid : v.id ∉ vp.map Prod.fst := h2 v (List.mem_cons_self v rest)
      rw [dictInsert_not_mem vp v.id (s + ctr v.book) hvid]
      have hrest : ∀ u ∈ rest, u.id ∉ (vp ++ [(v.id, s + ctr v.book)]).map Prod.fst := by
        intro u hu
        rw [List.map_append, List.mem_append]
        rintro (h | h)
        · exact h2 u (List.mem_cons_of_mem v hu) h
        · rw [List.map_singleton, List.mem_singleton] at h
          have hid : u.id = v.id := h
          exact h1.1 (hid ▸ List.mem_map_of_mem Verse.id hu)
      rw [ih (vp ++ [(v.id, s + ctr v.book)]) (bump ctr v.book) h1.2 hrest,
        List.append_assoc]
      rfl

lemma assignCons_map_fst (starts : List (String × Nat)) :
    ∀ (stream : List Verse) (ctr : String → Nat),
      (assignCons starts stream ctr).map Prod.fst
        = (stream.filter (fun v => (starts.lookup v.book).isSome)).map Verse.id := by
  intro stream
  induction stream with
  | nil => intro ctr; rfl
  | cons v rest ih =>
    intro ctr
    cases hlk : starts.lookup v.book with
    | none => simp [assignCons, hlk, List.filter_cons, ih]
    | some s => simp [assignCons, hlk, List.filter_cons, ih]

lemma bookStartsGo_map_fst (counts : String → Nat) :
    ∀ (order : List String) (pos : Nat),
      (bookStartPositionsGo counts order pos).map Prod.fst = order := by
  intro order
  induction order with
  | nil => intro pos; rfl
  | cons b rest ih => intro pos; simp [bookStartPositionsGo, ih]

lemma lookup_isSome_iff_mem (l : List (String × Nat)) (b : String) :
    (l.lookup b).isSome = true ↔ b ∈ l.map Prod.fst := by
  induction l with
  | nil => simp [List.lookup]
  | cons p rest ih =>
    by_cases h : b = p.1
    · have hb : (b == p.1) = true := by simp [h]
      simp [List.lookup, hb, h]
    · have hb : (b == p.1) = false := by simp [h]
      simp [List.lookup, hb, ih, h]

lemma assignCons_map_snd (starts : List (String × Nat)) :
    ∀ (stream : List Verse) (ctr : String → Nat),
      (∀ v ∈ stream, ((starts.lookup v.book).isSome = true)) →
      (assignCons starts stream ctr).map Prod.snd
        = assignF (fun b => (starts.lookup b).getD 0) stream ctr := by
  intro stream
  induction stream with
  | nil => intro ctr _; rfl
  | cons v rest ih =>
    intro ctr hall
    cases hlk : starts.lookup v.book with
    | none =>
      have := hall v (List.mem_cons_self v rest)
      rw [hlk] at this
      exact absurd this (by simp)
    | some s =>
      simp only [assignCons, hlk, List.map_cons, assignF]
      rw [ih (bump ctr v.book) (fun u hu => hall u (List.mem_cons_of_mem v hu))]
      rfl

lemma countP_update (c : String) (q q' : String → Bool) :
    ∀ (B : List String), B.Nodup → c ∈ B → (∀ b ∈ B, b ≠ c → q b = q' b) →
      B.countP q + (if q' c then 1 else 0) = B.countP q' + (if q c then 1 else 0) := by
  intro B
  induction B with
  | nil => intro _ hc _; exact absurd hc (by simp)
  | cons b B ih =>
    intro hno hc hagree
    rw [List.countP_cons, List.countP_cons]
    by_cases hbc : b = c
    · have heq : B.countP q = B.countP q' := by
        apply List.countP_congr
        intro x hx
        have hxc : x ≠ c := by
          intro hxc
          exact (List.nodup_cons.mp hno).1 (by rw [hbc]; exact hxc ▸ hx)
        rw [hagree x (List.mem_cons_of_mem b hx) hxc]
      rw [heq, hbc]
      omega
    · have hcB : c ∈ B := by
        rcases List.mem_cons.mp hc with h | h
        · exact absurd h.symm hbc
        · exact h
      have hqb : q b = q' b := hagree b (List.mem_cons_self b B) hbc
      have hrec := ih (List.nodup_cons.mp hno).2 hcB
        (fun x hx hxc => hagree x (List.mem_cons_of_mem b hx) hxc)
      rw [hqb]
      omega

lemma verseCounts_cons (v : Verse) (rest : List Verse) (b : String) :
    verseCounts (v :: rest) b = (if v.book = b then 1 else 0) + verseCounts rest b := by
  by_cases h : v.book = b
  · simp [verseCounts, List.filter_cons, h]
    omega
  · simp [verseCounts, List.filter_cons, h]

lemma assignF_count (f : String → Nat) (B : List String) (hB : B.Nodup) :
    ∀ (stream : List Verse) (ctr : String → Nat) (p : Nat),
      (∀ v ∈ stream, v.book ∈ B) →
      (assignF f stream ctr).count p
        = B.countP (fun b =>
            decide (f b + ctr b ≤ p ∧ p < f b + ctr b + verseCounts stream b)) := by
  intro stream
  induction stream with
  | nil =>
    intro ctr p _
    rw [show (assignF f [] ctr) = [] from rfl, List.count_nil]
    symm
    rw [List.countP_eq_zero]
    intro b _
    simp only [decide_eq_true_eq, not_and]
    intro h1
    have : verseCounts ([] : List Verse) b = 0 := rfl
    omega
  | cons v rest ih =>
    intro ctr p hall
    have hc : v.book ∈ B := hall v (List.mem_cons_self v rest)
    rw [show assignF f (v :: rest) ctr
        = (f v.book + ctr v.book) :: assignF f rest (bump ctr v.book) from rfl]
    rw [List.count_cons]
    rw [ih (bump ctr v.book) p (fun u hu => hall u (List.mem_cons_of_mem v hu))]
    have hagree : ∀ b ∈ B, b ≠ v.book →
        (fun b => decide (f b + bump ctr v.book b ≤ p ∧
          p < f b + bump ctr v.book b + verseCounts rest b)) b
        = (fun b => decide (f b + ctr b ≤ p ∧
          p < f b + ctr b + verseCounts (v :: rest) b)) b := by
      intro b _ hbne
      have hb1 : bump ctr v.book b = ctr b := by
        rw [bump]
        simp [hbne]
      have hb2 : verseCounts (v :: rest) b = verseCounts rest b := by
        rw [verseCounts_cons]
        have hnb : ¬ (v.book = b) := fun hh => hbne hh.symm
        simp [hnb]
      simp only [hb1, hb2]
    have hupd := countP_update v.book
      (fun b => decide (f b + bump ctr v.book b ≤ p ∧
        p < f b + bump ctr v.book b + verseCounts rest b))
      (fun b => decide (f b + ctr b ≤ p ∧
        p < f b + ctr b + verseCounts (v :: rest) b))
      B hB hc hagree
    have hbumpc : bump ctr v.book v.book = ctr v.book + 1 := by
      rw [bump]
      simp
    have hvcc : verseCounts (v :: rest) v.book = 1 + verseCounts rest v.book := by
      rw [verseCounts_cons]
      simp
    simp only [decide_eq_true_eq, hbumpc, hvcc, beq_iff_eq] at hupd ⊢
    by_cases hA : f v.book + ctr v.book = p
    · by_cases hB : f v.book + (ctr v.book + 1) ≤ p ∧
          p < f v.book + (ctr v.book + 1) + verseCounts rest v.book
      · have : ¬ (f v.book + (ctr v.book + 1) ≤ p ∧
            p < f v.book + (ctr v.book + 1) + verseCounts rest v.book) := by omega
        exact absurd hB this
      · have hPq : f v.book + ctr v.book ≤ p ∧
            p < f v.book + ctr v.book + (1 + verseCounts rest v.book) := by omega
        rw [if_pos hPq, if_neg hB] at hupd
        rw [if_pos hA]
        omega
    · by_cases hB : f v.book + (ctr v.book + 1) ≤ p ∧
          p < f v.book + (ctr v.book + 1) + verseCounts rest v.book
      · have hPq : f v.book + ctr v.book ≤ p ∧
            p < f v.book + ctr v.book + (1 + verseCounts rest v.book) := by omega
        rw [if_pos hPq, if_pos hB] at hupd
        rw [if_neg hA]
        omega
      · have hPq : ¬ (f v.book + ctr v.book ≤ p ∧
            p < f v.book + ctr v.book + (1 + verseCounts rest v.book)) := by omega
        rw [if_neg hPq, if_neg hB] at hupd
        rw [if_neg hA]
        omega

lemma lookup_bookStartsGo_head (counts : String → Nat) (b : String) (rest : List String)
    (pos : Nat) : (bookStartPositionsGo counts (b :: rest) pos).lookup b = some pos := by
  simp [bookStartPositionsGo, List.lookup]

lemma lookup_bookStartsGo_ne (counts : String → Nat) (b : String) (rest : List String)
    (pos : Nat) (x : String) (h : x ≠ b) :
    (bookStartPositionsGo counts (b :: rest) pos).lookup x
      = (bookStartPositionsGo counts rest (pos + counts b)).lookup x := by
  have hb : (x == b) = false := by simp [h]
  simp [bookStartPositionsGo, List.lookup, hb]

lemma countP_interval (counts : String → Nat) :
    ∀ (order : List String) (pos p : Nat), order.Nodup →
      order.countP (fun b =>
        decide ((((bookStartPositionsGo counts order pos).lookup b).getD 0) ≤ p ∧
          p < (((bookStartPositionsGo counts order pos).lookup b).getD 0) + counts b))
      = if pos ≤ p ∧ p < pos + (order.map counts).sum then 1 else 0 := by
  intro order
  induction order with
  | nil =>
    intro pos p _
    have hcond : ¬ (pos ≤ p ∧ p < pos + (([] : List String).map counts).sum) := by
      simp only [List.map_nil, List.sum_nil]
      omega
    rw [List.countP_nil, if_neg hcond]
  | cons b rest ih =>
    intro pos p hno
    rw [List.countP_cons]
    have hhead : ((bookStartPositionsGo counts (b :: rest) pos).lookup b).getD 0 = pos := by
      rw [lookup_bookStartsGo_head]
      rfl
    have htail : rest.countP (fun x =>
        decide ((((bookStartPositionsGo counts (b :: rest) pos).lookup x).getD 0) ≤ p ∧
          p < (((bookStartPositionsGo counts (b :: rest) pos).lookup x).getD 0) + counts x))
        = rest.countP (fun x =>
        decide ((((bookStartPositionsGo counts rest (pos + counts b)).lookup x).getD 0) ≤ p ∧
          p < (((bookStartPositionsGo counts rest (pos + counts b)).lookup x).getD 0) + counts x)) := by
      apply List.countP_congr
      intro x hx
      have hxb : x ≠ b := by
        intro he
        exact (List.nodup_cons.mp hno).1 (he ▸ hx)
      rw [lookup_bookStartsGo_ne counts b rest pos x hxb]
    rw [htail, ih (pos + counts b) p (List.nodup_cons.mp hno).2]
    simp only [decide_eq_true_eq, hhead, List.map_cons, List.sum_cons]
    by_cases h1 : pos ≤ p ∧ p < pos + counts b
    · by_cases h2 : pos + counts b ≤ p ∧ p < pos + counts b + (rest.map counts).sum
      · exact absurd h2 (by omega)
      · rw [if_neg h2, if_pos h1, if_pos (show pos ≤ p ∧ p < pos + (counts b + (rest.map counts).sum) by omega)]
    · by_cases h2 : pos + counts b ≤ p ∧ p < pos + counts b + (rest.map counts).sum
      · rw [if_pos h2, if_neg h1, if_pos (show pos ≤ p ∧ p < pos + (counts b + (rest.map counts).sum) by omega)]
      · rw [if_neg h2, if_neg h1, if_neg (show ¬ (pos ≤ p ∧ p < pos + (counts b + (rest.map counts).sum)) by omega)]

lemma sum_map_add_fn (l : List String) (f g : String → Nat) :
    (l.map (fun b => f b + g b)).sum = (l.map f).sum + (l.map g).sum := by
  induction l with
  | nil => rfl
  | cons b rest ih =>
    simp only [List.map_cons, List.sum_cons, ih]
    omega

lemma sum_map_indicator (c : String) :
    ∀ (l : List String), l.Nodup → c ∈ l →
      (l.map (fun b => if b = c then 1 else 0)).sum = 1 := by
  intro l
  induction l with
  | nil => intro _ hc; exact absurd hc (by simp)
  | cons b rest ih =>
    intro hno hc
    rw [List.map_cons, List.sum_cons]
    by_cases hbc : b = c
    · have hcr : c ∉ rest := fun hcrr => (List.nodup_cons.mp hno).1 (by rwa [hbc])
      have hmap : rest.map (fun x => if x = c then 1 else 0) = rest.map (fun _ => 0) := by
        apply List.map_congr_left
        intro x hx
        have hxc : ¬ x = c := fun hxc => hcr (by rwa [← hxc])
        simp [hxc]
      rw [if_pos hbc, hmap]
      simp
    · have hcr : c ∈ rest := by
        rcases List.mem_cons.mp hc with h | h
        · exact absurd h.symm hbc
        · exact h
      rw [if_neg hbc, ih (List.nodup_cons.mp hno).2 hcr]

lemma sum_verseCounts (B : List String) (corpus : List Verse) :
    B.Nodup → (∀ v ∈ corpus, v.book ∈ B) →
    (B.map (verseCounts corpus)).sum = corpus.length := by
  induction corpus with
  | nil =>
    intro _ _
    have hz : B.map (verseCounts []) = B.map (fun _ => 0) :=
      List.map_congr_left (fun b _ => rfl)
    rw [hz]
    simp
  | cons v rest ih =>
    intro hB hbooks
    have h1 : B.map (verseCounts (v :: rest))
        = B.map (fun b => (if b = v.book then 1 else 0) + verseCounts rest b) := by
      apply List.map_congr_left
      intro b _
      rw [verseCounts_cons]
      by_cases h : v.book = b
      · simp [h]
      · have h2 : ¬ (b = v.book) := fun hh => h hh.symm
        simp [h, h2]
    rw [h1, sum_map_add_fn,
      sum_map_indicator v.book B hB (hbooks v (List.mem_cons_self v rest)),
      ih hB (fun u hu => hbooks u (List.mem_cons_of_mem v hu))]
    simp only [List.length_cons]
    omega

lemma count_range_ite (n p : Nat) : (List.range n).count p = if p < n then 1 else 0 := by
  by_cases h : p < n
  · rw [if_pos h]
    exact List.count_eq_one_of_mem (List.nodup_range n) (List.mem_range.mpr h)
  · rw [if_neg h]
    refine List.count_eq_zero_of_not_mem ?_
    rw [List.mem_range]
    omega

/-- C1: over a corpus whose book ids all lie in the (duplicate-free)
canonical order, with distinct verse ids, `build_verse_positions`
assigns one entry per corpus verse and its positions are a permutation
of `[0, totalVerses)`: every position used exactly once, no duplicates,
no gaps. -/
theorem versePositionsBijection (bookOrder : List String) (corpus : List Verse)
    (hbo : bookOrder.Nodup)
    (hids : (corpus.map Verse.id).Nodup)
    (hbooks : ∀ v ∈ corpus, v.book ∈ bookOrder) :
    (build_verse_positions bookOrder corpus).map Prod.fst = corpus.map Verse.id ∧
    ((build_verse_positions bookOrder corpus).map Prod.snd).Perm
      (List.range corpus.length) := by
  have hbridge : build_verse_positions bookOrder corpus
      = assignCons (bookStartPositions bookOrder (verseCounts corpus)) corpus (fun _ => 0) := by
    rw [build_verse_positions,
      bvpGo_eq_append (bookStartPositions bookOrder (verseCounts corpus)) corpus []
        (fun _ => 0) hids (by simp), List.nil_append]
  have hkeys : (bookStartPositions bookOrder (verseCounts corpus)).map Prod.fst = bookOrder :=
    bookStartsGo_map_fst (verseCounts corpus) bookOrder 0
  have hallsome : ∀ v ∈ corpus,
      (((bookStartPositions bookOrder (verseCounts corpus)).lookup v.book).isSome = true) := by
    intro v hv
    rw [lookup_isSome_iff_mem, hkeys]
    exact hbooks v hv
  constructor
  · rw [hbridge, assignCons_map_fst]
    have hfilter : corpus.filter (fun v =>
        ((bookStartPositions bookOrder (verseCounts corpus)).lookup v.book).isSome) = corpus := by
      rw [List.filter_eq_self]
      intro v hv
      exact hallsome v hv
    rw [hfilter]
  · rw [hbridge, assignCons_map_snd _ corpus (fun _ => 0) hallsome,
      List.perm_iff_count]
    intro p
    rw [assignF_count
      (fun b => ((bookStartPositions bookOrder (verseCounts corpus)).lookup b).getD 0)
      bookOrder hbo corpus (fun _ => 0) p hbooks,
      count_range_ite]
    have hint := countP_interval (verseCounts corpus) bookOrder 0 p hbo
    have hsum := sum_verseCounts bookOrder corpus hbo hbooks
    calc bookOrder.countP (fun b =>
          decide ((fun b => ((bookStartPositions bookOrder (verseCounts corpus)).lookup b).getD 0) b
              + (fun _ => 0) b ≤ p ∧
            p < (fun b => ((bookStartPositions bookOrder (verseCounts corpus)).lookup b).getD 0) b
              + (fun _ => 0) b + verseCounts corpus b))
        = bookOrder.countP (fun b =>
          decide ((((bookStartPositionsGo (verseCounts corpus) bookOrder 0).lookup b).getD 0) ≤ p ∧
            p < (((bookStartPositionsGo (verseCounts corpus) bookOrder 0).lookup b).getD 0)
              + verseCounts corpus b)) := by
          apply List.countP_congr
          intro b _
          simp only [bookStartPositions, decide_eq_true_eq]
          omega
      _ = if 0 ≤ p ∧ p < 0 + (bookOrder.map (verseCounts corpus)).sum then 1 else 0 := hint
      _ = if p < corpus.length then 1 else 0 := by
          rw [hsum]
          by_cases hp : p < corpus.length
          · rw [if_pos (show 0 ≤ p ∧ p < 0 + corpus.length by omega), if_pos hp]
          · rw [if_neg (show ¬ (0 ≤ p ∧ p < 0 + corpus.length) by omega), if_neg hp]

/-- Witness for C1: order `[A, B]`, corpus `A1, A2, B1` — the index
keys are exactly the verse ids and the positions are a permutation of
`[0, 3)`. -/
theorem versePositionsBijection_witness :
    (build_verse_positions ["A", "B"]
        [⟨"A1", "A", 1, 1⟩, ⟨"A2", "A", 1, 2⟩, ⟨"B1", "B", 1, 1⟩]).map Prod.fst
      = ([⟨"A1", "A", 1, 1⟩, ⟨"A2", "A", 1, 2⟩, (⟨"B1", "B", 1, 1⟩ : Verse)]).map Verse.id ∧
    ((build_verse_positions ["A", "B"]
        [⟨"A1", "A", 1, 1⟩, ⟨"A2", "A", 1, 2⟩, ⟨"B1", "B", 1, 1⟩]).map Prod.snd).Perm
      (List.range ([⟨"A1", "A", 1, 1⟩, ⟨"A2", "A", 1, 2⟩, (⟨"B1", "B", 1, 1⟩ : Verse)]).length) :=
  versePositionsBijection ["A", "B"]
    [⟨"A1", "A", 1, 1⟩, ⟨"A2", "A", 1, 2⟩, ⟨"B1", "B", 1, 1⟩]
    (by decide) (by decide) (by decide)

/-- C8 counterexample for the reporting half of the claim: with two
mapped verses and one unmapped verse, the loop prints the count of
INDEXED verses (2), which differs from the count of skipped verses (1);
no skipped-verse count is reported anywhere in `build_verse_positions`. -/
theorem skippedCountNotReported :
    build_verse_positions_report ["A"]
        [⟨"A1", "A", 1, 1⟩, ⟨"A2", "A", 1, 2⟩, ⟨"X1", "X", 1, 1⟩] = 2 ∧
    ([⟨"A1", "A", 1, 1⟩, ⟨"A2", "A", 1, 2⟩, (⟨"X1", "X", 1, 1⟩ : Verse)].filter
        (fun v => decide (v.book ∉ ["A"]))).length = 1 ∧
    build_verse_positions_report ["A"]
        [⟨"A1", "A", 1, 1⟩, ⟨"A2", "A", 1, 2⟩, ⟨"X1", "X", 1, 1⟩]
      ≠ ([⟨"A1", "A", 1, 1⟩, ⟨"A2", "A", 1, 2⟩, (⟨"X1", "X", 1, 1⟩ : Verse)].filter
        (fun v => decide (v.book ∉ ["A"]))).length := by
  refine ⟨rfl, rfl, ?_⟩
  decide

/-- C8 (amended): a verse whose book is outside the canonical order is
dropped from the position index without error (its id never appears as
a key, while every mapped verse is indexed), and the count the function
reports is the number of INDEXED verses — not the number of skipped
ones. -/
theorem unmappedVerseSkipped (bookOrder : List String) (corpus : List Verse)
    (hids : (corpus.map Verse.id).Nodup) :
    (∀ v ∈ corpus, v.book ∉ bookOrder →
      v.id ∉ (build_verse_positions bookOrder corpus).map Prod.fst) ∧
    build_verse_positions_report bookOrder corpus
      = (corpus.filter (fun v => decide (v.book ∈ bookOrder))).length := by
  have hbridge : build_verse_positions bookOrder corpus
      = assignCons (bookStartPositions bookOrder (verseCounts corpus)) corpus (fun _ => 0) := by
    rw [build_verse_positions,
      bvpGo_eq_append (bookStartPositions bookOrder (verseCounts corpus)) corpus []
        (fun _ => 0) hids (by simp), List.nil_append]
  have hkeys : (bookStartPositions bookOrder (verseCounts corpus)).map Prod.fst = bookOrder :=
    bookStartsGo_map_fst (verseCounts corpus) bookOrder 0
  have hfeq : corpus.filter (fun v =>
        ((bookStartPositions bookOrder (verseCounts corpus)).lookup v.book).isSome)
      = corpus.filter (fun v => decide (v.book ∈ bookOrder)) := by
    apply List.filter_congr
    intro v _
    by_cases h : v.book ∈ bookOrder
    · have h1 : ((bookStartPositions bookOrder (verseCounts corpus)).lookup v.book).isSome = true := by
        rw [lookup_isSome_iff_mem, hkeys]
        exact h
      rw [h1]
      simp [h]
    · have h1 : ((bookStartPositions bookOrder (verseCounts corpus)).lookup v.book).isSome = false := by
        rw [Bool.eq_false_iff]
        intro hs
        rw [lookup_isSome_iff_mem, hkeys] at hs
        exact h hs
      rw [h1]
      simp [h]
  constructor
  · intro v hv hbn hmem
    rw [hbridge, assignCons_map_fst, hfeq] at hmem
    obtain ⟨u, hu, huid⟩ := List.mem_map.mp hmem
    have huc : u ∈ corpus := (List.mem_filter.mp hu).1
    have hub : decide (u.book ∈ bookOrder) = true := (List.mem_filter.mp hu).2
    have huv : u = v := List.inj_on_of_nodup_map hids huc hv huid
    rw [huv] at hub
    exact hbn (of_decide_eq_true hub)
  · rw [build_verse_positions_report, hbridge]
    have hlen : (assignCons (bookStartPositions bookOrder (verseCounts corpus)) corpus
        (fun _ => 0)).length
        = ((assignCons (bookStartPositions bookOrder (verseCounts corpus)) corpus
        (fun _ => 0)).map Prod.fst).length := (List.length_map _ _).symm
    rw [hlen, assignCons_map_fst, hfeq, List.length_map]

/-- Witness for the amended C8 on the counterexample corpus: `X1` is
absent from the index and the reported count equals the number of
mapped verses (2). -/
theorem unmappedVerseSkipped_witness :
    ("X1" : String) ∉ (build_verse_positions ["A"]
        [⟨"A1", "A", 1, 1⟩, ⟨"A2", "A", 1, 2⟩, ⟨"X1", "X", 1, 1⟩]).map Prod.fst ∧
    build_verse_positions_report ["A"]
        [⟨"A1", "A", 1, 1⟩, ⟨"A2", "A", 1, 2⟩, ⟨"X1", "X", 1, 1⟩]
      = ([⟨"A1", "A", 1, 1⟩, ⟨"A2", "A", 1, 2⟩, (⟨"X1", "X", 1, 1⟩ : Verse)].filter
        (fun v => decide (v.book ∈ ["A"]))).length :=
  ⟨(unmappedVerseSkipped ["A"]
      [⟨"A1", "A", 1, 1⟩, ⟨"A2", "A", 1, 2⟩, ⟨"X1", "X", 1, 1⟩] (by decide)).1
      ⟨"X1", "X", 1, 1⟩ (by decide) (by decide),
   (unmappedVerseSkipped ["A"]
      [⟨"A1", "A", 1, 1⟩, ⟨"A2", "A", 1, 2⟩, ⟨"X1", "X", 1, 1⟩] (by decide)).2⟩
